import Mathlib

/-!
Verification of the Hermite-expansion anamorphosis engine of
pygslib (src/cython_code/nonlinear.pyx).

The numerical code is shallowly embedded over an arbitrary linear ordered
field F standing for the floating point reals.  Functions of the C math
library that the source calls (sqrt inside recurrentH and fit_PCI, exp
inside stnormpdf) are passed as explicit function parameters, so every
definition below stays computable and can be evaluated at F = Rat, while
theorems may instantiate F = Real with the genuine square root.

Fallible code (assert statements in the source) is modelled with Option:
a failed assertion returns none.
-/

namespace PyGSLibNL

variable {F : Type} [LinearOrderedField F]

/-! ### Generic helpers used by the embedding -/

/-- Python for-loop search: walk the visited index list in order and stop at
the first index satisfying p; when no index satisfies p the loop variable
keeps the last visited index.  Empty visit lists (which leave a cython cdef
variable uninitialized in the source) return 0; no theorem relies on that
case. -/
def firstMatch (p : Nat → Prop) [DecidablePred p] : List Nat → Nat
  | [] => 0
  | [k] => k
  | k :: k2 :: rest => if p k then k else firstMatch p (k2 :: rest)

/-- Index list visited by the Python loop range(a, b-1, -1), namely
a, a-1, ..., b. -/
def downTo (a b : Nat) : List Nat :=
  (List.range' b (a + 1 - b)).reverse

/-- Characterization of a first-match scan: the scan result r splits the
visited list so that every earlier index fails the predicate, and either r
satisfies the predicate or r is the last visited index. -/
def FirstMatchSpec (p : Nat → Prop) (visited : List Nat) (r : Nat) : Prop :=
  ∃ pre post, visited = pre ++ r :: post ∧ (∀ x ∈ pre, ¬ p x) ∧ (p r ∨ post = [])

theorem firstMatch_spec (p : Nat → Prop) [DecidablePred p] :
    ∀ l : List Nat, l ≠ [] → FirstMatchSpec p l (firstMatch p l)
  | [], h => absurd rfl h
  | [k], _ => by
      refine ⟨[], [], rfl, by simp, ?_⟩
      by_cases hp : p k
      · exact Or.inl hp
      · exact Or.inr rfl
  | k :: k2 :: rest, _ => by
      simp only [firstMatch]
      by_cases hp : p k
      · rw [if_pos hp]
        exact ⟨[], k2 :: rest, rfl, by simp, Or.inl hp⟩
      · rw [if_neg hp]
        obtain ⟨pre, post, hsplit, hpre, hlast⟩ :=
          firstMatch_spec p (k2 :: rest) (by simp)
        refine ⟨k :: pre, post, ?_, ?_, hlast⟩
        · rw [List.cons_append]; exact congrArg (k :: ·) hsplit
        · intro x hx
          rcases List.mem_cons.mp hx with h | h
          · exact h ▸ hp
          · exact hpre x h

theorem firstMatch_mem (p : Nat → Prop) [DecidablePred p] :
    ∀ l : List Nat, l ≠ [] → firstMatch p l ∈ l
  | [], h => absurd rfl h
  | [k], _ => by simp [firstMatch]
  | k :: k2 :: rest, _ => by
      simp only [firstMatch]
      by_cases hp : p k
      · rw [if_pos hp]; exact List.mem_cons_self _ _
      · rw [if_neg hp]
        exact List.mem_cons_of_mem _ (firstMatch_mem p (k2 :: rest) (by simp))

theorem mem_downTo {a b x : Nat} (hba : b ≤ a) :
    x ∈ downTo a b ↔ b ≤ x ∧ x ≤ a := by
  unfold downTo
  rw [List.mem_reverse, List.mem_range'_1]
  omega

theorem downTo_ne_nil {a b : Nat} (hba : b ≤ a) : downTo a b ≠ [] := by
  intro h
  have : a ∈ downTo a b := (mem_downTo hba).mpr ⟨hba, le_refl a⟩
  simp [h] at this

theorem range'_ne_nil {s n : Nat} (hn : 0 < n) : List.range' s n ≠ [] := by
  cases n with
  | zero => omega
  | succ m => simp [List.range']

/-- Mean of a list, as np.mean: sum divided by length. -/
def meanOf (l : List F) : F :=
  l.foldl (· + ·) 0 / (l.length : F)

/-- Python min over a sequence (meaningless 0 on the empty list, where the
source would raise). -/
def minList (l : List F) : F :=
  l.foldl min (l.headD 0)

/-- Python max over a sequence. -/
def maxList (l : List F) : F :=
  l.foldl max (l.headD 0)

/-- Linear interpolation over a list of (x, f) pairs with x ascending,
clamping outside the table, exactly as np.interp behaves on sorted xp. -/
def interpSeg (x : F) : List (F × F) → F
  | [] => 0
  | [(_, f0)] => f0
  | (x0, f0) :: (x1, f1) :: rest =>
      if x ≤ x0 then f0
      else if x ≤ x1 then f0 + (x - x0) * (f1 - f0) / (x1 - x0)
      else interpSeg x ((x1, f1) :: rest)

/-- np.interp(x, xp, fp) for sorted xp. -/
def np_interp (x : F) (xp fp : List F) : F :=
  interpSeg x (xp.zip fp)

/-! ### Control point scans (calautorized, calautorized_blk, findcontrolpoints) -/

/-- Embedding of calautorized: four first-match linear scans locating the
practical indices ii, jj on the raw curve and the authorized indices i, j on
the analytic curve, with zpmin and zpmax defaulting to min and max of zraw
when the caller omits them. -/
def calautorized (zana zraw gauss : List F) (zpminO zpmaxO : Option F) :
    Nat × Nat × Nat × Nat :=
  let zpmin := zpminO.getD (minList zraw)
  let zpmax := zpmaxO.getD (maxList zraw)
  let jj := firstMatch (fun k => zraw.getD k 0 < zpmax) (downTo (zraw.length - 1) 1)
  let ii := firstMatch (fun k => zraw.getD k 0 > zpmin) (List.range' 0 (zraw.length - 1))
  let i := firstMatch
    (fun k => zana.getD (k - 1) 0 < zraw.getD ii 0 ∨
              zana.getD (k - 1) 0 > zana.getD k 0 ∨
              gauss.getD (k - 1) 0 < gauss.getD ii 0)
    (downTo (zana.length / 2) 2)
  let j := firstMatch
    (fun k => zana.getD (k + 1) 0 > zraw.getD jj 0 ∨
              zana.getD (k + 1) 0 < zana.getD k 0 ∨
              gauss.getD (k + 1) 0 > gauss.getD jj 0)
    (List.range' (zana.length / 2) (zana.length - 1 - zana.length / 2))
  (i, j, ii, jj)

/-- Embedding of calautorized_blk: practical indices are pinned to the full
range (ii = 0, jj = N - 1) and the authorized scans compare against the
caller supplied scalars zpmin and zpmax. -/
def calautorized_blk (zana gauss : List F) (zpmin zpmax : F) :
    Nat × Nat × Nat × Nat :=
  let jj := zana.length - 1
  let ii := 0
  let i := firstMatch
    (fun k => zana.getD (k - 1) 0 < zpmin ∨
              zana.getD (k - 1) 0 > zana.getD k 0 ∨
              gauss.getD (k - 1) 0 < gauss.getD ii 0)
    (downTo (zana.length / 2) 2)
  let j := firstMatch
    (fun k => zana.getD (k + 1) 0 > zpmax ∨
              zana.getD (k + 1) 0 < zana.getD k 0 ∨
              gauss.getD (k + 1) 0 > gauss.getD jj 0)
    (List.range' (zana.length / 2) (zana.length - 1 - zana.length / 2))
  (i, j, ii, jj)

/-- Postcondition assert statements at the tail of findcontrolpoints: the
computed indices are returned only when the analytic and Gaussian orderings
hold, otherwise the call dies on an assert. -/
def fcpCheck (zana zraw gauss : List F) (i j ii jj : Nat) :
    Option (Nat × Nat × Nat × Nat) :=
  if ¬ (zana.getD j 0 ≤ zraw.getD jj 0) then none
  else if ¬ (zana.getD i 0 ≥ zraw.getD ii 0) then none
  else if ¬ (gauss.getD j 0 ≤ gauss.getD jj 0) then none
  else if ¬ (gauss.getD i 0 ≥ gauss.getD ii 0) then none
  else some (i, j, ii, jj)

/-- Embedding of findcontrolpoints: the four precondition assert statements,
the four scans, and the four postcondition assert statements of the source,
with a failed assert modelled as none. -/
def findcontrolpoints (zana zraw gauss : List F) (zpmin zpmax zamin zamax : F) :
    Option (Nat × Nat × Nat × Nat) :=
  if ¬ (zamax < zamin) then none
  else if ¬ (zpmax < zpmin) then none
  else if ¬ (zamax ≤ zpmax) then none
  else if ¬ (zamin ≥ zpmin) then none
  else
    fcpCheck zana zraw gauss
      (firstMatch (fun k => zana.getD (k - 1) 0 ≤ zamin) (downTo (zana.length / 2) 2))
      (firstMatch (fun k => zana.getD (k + 1) 0 ≥ zamax)
        (List.range' (zana.length / 2) (zana.length - 1 - zana.length / 2)))
      (firstMatch (fun k => zraw.getD k 0 ≥ zpmin) (List.range' 0 (zraw.length - 1)))
      (firstMatch (fun k => zraw.getD k 0 ≤ zpmax) (downTo (zraw.length - 1) 1))

/-! ### Hermite recurrence, PCI fitting, expansion -/

/-- Three-way zipWith, used for the Hermite recurrence rows. -/
def zipW3 {α β γ δ : Type} (f : α → β → γ → δ) : List α → List β → List γ → List δ
  | a :: as, b :: bs, c :: cs => f a b c :: zipW3 f as bs cs
  | _, _, _ => []

/-- Row k of the Hermite matrix built by recurrentH.  The source computes
rows in place with H[k+1,:] = -1/sqrt(k+1)*y*H[k,:] - sqrt(k/(k+1))*H[k-1,:]
for k = 1..K-1; sqF models np.sqrt on rational arguments. -/
def hermRow (sqF : ℚ → F) (y : List F) : Nat → List F
  | 0 => y.map (fun _ => 1)
  | 1 => y.map (fun v => -v)
  | k + 2 =>
      zipW3
        (fun v hk hk1 =>
          -1 / sqF ((k : ℚ) + 2) * v * hk - sqF (((k : ℚ) + 1) / ((k : ℚ) + 2)) * hk1)
        y (hermRow sqF y (k + 1)) (hermRow sqF y k)

/-- Embedding of recurrentH: asserts K >= 1, then returns the (K+1) x len(y)
matrix of normalized Hermite polynomial values. -/
def recurrentH (sqF : ℚ → F) (y : List F) (K : Nat) : Option (List (List F)) :=
  if K < 1 then none
  else some ((List.range (K + 1)).map (hermRow sqF y))

/-- Embedding of the stnormpdf helper: exp(-x^2/2) / (2*3.1415926)^0.5, with
expF modelling libc exp and sqF modelling the float power 0.5. -/
def stnormpdf (expF : F → F) (sqF : ℚ → F) (x : F) : F :=
  expF (-x ^ 2 / 2) / sqF (2 * 3.1415926)

/-- Embedding of fit_PCI.  The source checks the shapes, conditionally
defaults the local meanz to np.mean(z) (a dead store: meanz is never read
afterwards), sets PCI[0] = np.mean(z), and accumulates the stepwise sums for
the orders p = 1..K.  The pdf buffer g keeps its zero initialization when
the outer loop body never runs (H with a single row). -/
def fit_PCI (expF : F → F) (sqF : ℚ → F) (z y : List F) (H : List (List F))
    (meanz : Option F) : Option (List F × List F) :=
  if ¬ (y.length = z.length ∧ z.length = (H.headD []).length) then none
  else
    let n := H.length
    let m := (H.headD []).length
    let mean := meanOf z
    let _meanzLocal := meanz.getD mean
    let g : List F :=
      if n ≤ 1 then List.replicate m 0
      else (List.range m).map (fun t => if t = 0 then 0 else stnormpdf expF sqF (y.getD t 0))
    let PCI : List F :=
      (List.range n).map (fun (p : Nat) =>
        if p = 0 then mean
        else (List.range' 1 (m - 1)).foldl
          (fun a t =>
            a + (z.getD (t - 1) 0 - z.getD t 0) * 1 / sqF (p : ℚ) *
              ((H.getD (p - 1) []).getD t 0) * stnormpdf expF sqF (y.getD t 0))
          0)
    some (PCI, g)

/-- Embedding of var_PCI: the sum of squares of PCI[1:]. -/
def var_PCI (PCI : List F) : F :=
  ((PCI.drop 1).map (fun x => x ^ 2)).foldl (· + ·) 0

/-- Embedding of expand_anamor: Z starts as the constant PCI[0] vector of
length H.shape[1] and accumulates PCI[p]*H[p,:]*r^p for p = 1..len(PCI)-1. -/
def expand_anamor (PCI : List F) (H : List (List F)) (r : F) : List F :=
  (List.range' 1 (PCI.length - 1)).foldl
    (fun Z p => Z.zipWith (fun zv hv => zv + PCI.getD p 0 * hv * r ^ p) (H.getD p []))
    (List.replicate (H.headD []).length (PCI.getD 0 0))

/-! ### Bijective transforms -/

/-- Embedding of Y2Z: expand the anamorphosis at the input Gaussian vector
and overwrite every entry at or below ypmin (resp. at or above ypmax) with
the two-point np.interp through the lower (resp. upper) anchors. -/
def Y2Z (sqF : ℚ → F) (y PCI : List F)
    (zamin yamin zpmin ypmin zpmax ypmax zamax yamax r : F) : Option (List F) :=
  match recurrentH sqF y (PCI.length - 1) with
  | none => none
  | some H =>
      let Z := expand_anamor PCI H r
      some ((y.zip Z).map (fun yz =>
        if yz.1 ≤ ypmin then np_interp yz.1 [yamin, ypmin] [zamin, zpmin]
        else if yz.1 ≥ ypmax then np_interp yz.1 [ypmax, yamax] [zpmax, zamax]
        else yz.2))

/-- Embedding of Z2Y_linear: per element, the first matching rule of the
five-way classification; an element matching no rule would keep the zero
initialization of the output buffer. -/
def Z2Y_linear (z zm ym : List F)
    (zamin yamin zpmin ypmin zpmax ypmax zamax yamax : F) : List F :=
  z.map (fun zi =>
    if zi ≤ zamin then yamin
    else if zi ≥ zamax then yamax
    else if zi ≤ zpmin then np_interp zi [zamin, zpmin] [yamin, ypmin]
    else if zi ≥ zpmax then np_interp zi [zpmax, zamax] [ypmax, yamax]
    else if zi < zpmax ∧ zi > zpmin then np_interp zi zm ym
    else 0)

/-! ### Support effect solver -/

/-- Embedding of f_var_Zv: sum over p = 1..len(PCI)-1 of PCI[p]^2 * r^(2p),
minus the target variance. -/
def f_var_Zv (r : F) (PCI : List F) (Var_Zv : F) : F :=
  (List.range' 1 (PCI.length - 1)).foldl
    (fun a p => a + PCI.getD p 0 ^ 2 * r ^ (2 * p)) 0 - Var_Zv

/-- Plain interval bisection with fuel, standing in for the iteration phase
of the bracketed root finder. -/
def bisect (f : F → F) : Nat → F → F → F
  | 0, a, b => (a + b) / 2
  | fuel + 1, a, b =>
      let m := (a + b) / 2
      if f a * f m ≤ 0 then bisect f fuel a m else bisect f fuel m b

/-- Modelled from the spec: the bracketed root finder scipy.optimize.brentq
used by get_r and get_ro, which is not part of this repository.  Per the
spec it requires a sign change of the residual across the bracket and fails
otherwise; like the reference implementation it first rejects brackets with
f(a)*f(b) > 0 and returns an endpoint immediately when the residual is zero
there, and otherwise narrows the bracket iteratively. -/
def brentq (f : F → F) (a b : F) : Option F :=
  if f a * f b > 0 then none
  else if f a = 0 then some a
  else if f b = 0 then some b
  else some (bisect f 100 a b)

/-- Embedding of get_r: Brent root finding of f_var_Zv on the bracket [0,1]. -/
def get_r (Var_Zv : F) (PCI : List F) : Option F :=
  brentq (fun r => f_var_Zv r PCI Var_Zv) 0 1

/-! ### Shared lemmas -/

theorem getD_map {α β : Type} (f : α → β) (da : α) (db : β) :
    ∀ (l : List α) (t : Nat), t < l.length → (l.map f).getD t db = f (l.getD t da)
  | a :: as, 0, _ => rfl
  | a :: as, t + 1, h =>
      getD_map f da db as t (by simpa using h)

theorem getD_zip {α β : Type} (da : α) (db : β) :
    ∀ (l1 : List α) (l2 : List β) (t : Nat), t < l1.length → t < l2.length →
      (l1.zip l2).getD t (da, db) = (l1.getD t da, l2.getD t db)
  | a :: as, b :: bs, 0, _, _ => rfl
  | a :: as, b :: bs, t + 1, h1, h2 =>
      getD_zip da db as bs t (by simpa using h1) (by simpa using h2)

theorem getD_zipWith {α β γ : Type} (f : α → β → γ) (da : α) (db : β) (dc : γ) :
    ∀ (l1 : List α) (l2 : List β) (t : Nat), t < l1.length → t < l2.length →
      (l1.zipWith f l2).getD t dc = f (l1.getD t da) (l2.getD t db)
  | a :: as, b :: bs, 0, _, _ => rfl
  | a :: as, b :: bs, t + 1, h1, h2 =>
      getD_zipWith f da db dc as bs t (by simpa using h1) (by simpa using h2)

theorem getD_replicate {α : Type} (a d : α) :
    ∀ (n t : Nat), t < n → (List.replicate n a).getD t d = a
  | n + 1, 0, _ => rfl
  | n + 1, t + 1, h => getD_replicate a d n t (by omega)

theorem np_interp_pair_left {x a b fa fb : F} (h : x ≤ a) :
    np_interp x [a, b] [fa, fb] = fa := by
  simp [np_interp, interpSeg, h]

theorem np_interp_pair_mid {x a b fa fb : F} (h1 : ¬ x ≤ a) (h2 : x ≤ b) :
    np_interp x [a, b] [fa, fb] = fa + (x - a) * (fb - fa) / (b - a) := by
  simp [np_interp, interpSeg, h1, h2]

theorem np_interp_pair_right {x a b fa fb : F} (h1 : ¬ x ≤ a) (h2 : ¬ x ≤ b) :
    np_interp x [a, b] [fa, fb] = fb := by
  simp [np_interp, interpSeg, h1, h2]

theorem length_zipW3 {α β γ δ : Type} (f : α → β → γ → δ) :
    ∀ (as : List α) (bs : List β) (cs : List γ),
      (zipW3 f as bs cs).length = min as.length (min bs.length cs.length)
  | [], bs, cs => by simp [zipW3]
  | a :: as, [], cs => by simp [zipW3]
  | a :: as, b :: bs, [] => by simp [zipW3]
  | a :: as, b :: bs, c :: cs => by
      simp only [zipW3, List.length_cons, length_zipW3 f as bs cs]
      omega

theorem getD_zipW3 {α β γ δ : Type} (f : α → β → γ → δ)
    (da : α) (db : β) (dc : γ) (dd : δ) :
    ∀ (as : List α) (bs : List β) (cs : List γ) (t : Nat),
      t < as.length → t < bs.length → t < cs.length →
      (zipW3 f as bs cs).getD t dd = f (as.getD t da) (bs.getD t db) (cs.getD t dc)
  | a :: as, b :: bs, c :: cs, 0, _, _, _ => rfl
  | a :: as, b :: bs, c :: cs, t + 1, h1, h2, h3 =>
      getD_zipW3 f da db dc dd as bs cs t
        (by simpa using h1) (by simpa using h2) (by simpa using h3)

theorem length_hermRow (sqF : ℚ → F) (y : List F) :
    ∀ k, (hermRow sqF y k).length = y.length
  | 0 => by simp [hermRow]
  | 1 => by simp [hermRow]
  | k + 2 => by
      simp only [hermRow, length_zipW3, length_hermRow sqF y (k + 1),
        length_hermRow sqF y k]
      omega

theorem getD_range (n t : Nat) (ht : t < n) : (List.range n).getD t 0 = t := by
  rw [List.getD_eq_getElem _ _ (by simpa using ht)]
  simp

/-- The matrix built by recurrentH selects hermRow p at row index p. -/
theorem getD_hermMatrix (sqF : ℚ → F) (y : List F) (n p : Nat) (hp : p < n) :
    ((List.range n).map (hermRow sqF y)).getD p [] = hermRow sqF y p := by
  rw [getD_map (hermRow sqF y) 0 [] (List.range n) p (by simpa using hp)]
  rw [getD_range n p hp]

theorem foldl_zipWith_length (f : Nat → F → F → F) (H : List (List F)) :
    ∀ (l : List Nat) (Z : List F), (∀ p ∈ l, Z.length ≤ (H.getD p []).length) →
      (l.foldl (fun Zc p => Zc.zipWith (f p) (H.getD p [])) Z).length = Z.length
  | [], Z, _ => rfl
  | p :: ps, Z, h => by
      rw [List.foldl_cons]
      have hlen : (Z.zipWith (f p) (H.getD p [])).length = Z.length := by
        rw [List.length_zipWith]
        exact min_eq_left (h p (List.mem_cons_self p ps))
      rw [foldl_zipWith_length f H ps _
        (by intro q hq; rw [hlen]; exact h q (List.mem_cons_of_mem _ hq)), hlen]

theorem foldl_zipWith_getD (f : Nat → F → F → F) (H : List (List F)) :
    ∀ (l : List Nat) (Z : List F) (t : Nat),
      (∀ p ∈ l, Z.length ≤ (H.getD p []).length) → t < Z.length →
      (l.foldl (fun Zc p => Zc.zipWith (f p) (H.getD p [])) Z).getD t 0 =
        l.foldl (fun acc p => f p acc ((H.getD p []).getD t 0)) (Z.getD t 0)
  | [], Z, t, _, _ => rfl
  | p :: ps, Z, t, h, ht => by
      rw [List.foldl_cons, List.foldl_cons]
      have hrow := h p (List.mem_cons_self p ps)
      have hlen : (Z.zipWith (f p) (H.getD p [])).length = Z.length := by
        rw [List.length_zipWith]
        exact min_eq_left hrow
      rw [foldl_zipWith_getD f H ps _ t
        (by intro q hq; rw [hlen]; exact h q (List.mem_cons_of_mem _ hq))
        (by rw [hlen]; exact ht)]
      rw [getD_zipWith (f p) 0 0 0 Z _ t ht (by omega)]

theorem foldl_add_eq {α : Type} (g : α → F) :
    ∀ (l : List α) (s : F), l.foldl (fun a x => a + g x) s = s + (l.map g).sum
  | [], s => by simp
  | a :: l, s => by
      rw [List.foldl_cons, foldl_add_eq g l (s + g a)]
      simp [add_assoc]

theorem sum_map_range'_eq_sum_Icc (g : Nat → F) :
    ∀ n : Nat, ((List.range' 1 n).map g).sum = ∑ p ∈ Finset.Icc 1 n, g p
  | 0 => by simp
  | n + 1 => by
      rw [List.range'_concat, List.map_append, List.sum_append,
        sum_map_range'_eq_sum_Icc g n, Finset.sum_Icc_succ_top (by omega)]
      simp [Nat.add_comm 1 n]

/-- Core evaluation of expand_anamor: length, entrywise sum formula, and the
collapse at r = 0. -/
theorem expand_anamor_core (PCI : List F) (H : List (List F)) (r : F) (K N : Nat)
    (hP : PCI.length = K + 1) (hH : H.length = K + 1)
    (hrows : ∀ row ∈ H, row.length = N) :
    (expand_anamor PCI H r).length = N ∧
    (∀ t, t < N →
      (expand_anamor PCI H r).getD t 0 =
        PCI.getD 0 0 +
          ∑ p ∈ Finset.Icc 1 K, PCI.getD p 0 * r ^ p * (H.getD p []).getD t 0) ∧
    (r = 0 → expand_anamor PCI H r = List.replicate N (PCI.getD 0 0)) := by
  have hhead : (H.headD []).length = N := by
    cases H with
    | nil => simp at hH
    | cons h0 hs => exact hrows h0 (List.mem_cons_self h0 hs)
  have hrowlen : ∀ p ∈ List.range' 1 (PCI.length - 1), (H.getD p []).length = N := by
    intro p hp
    rw [List.mem_range'_1] at hp
    have hpH : p < H.length := by omega
    rw [List.getD_eq_getElem _ _ hpH]
    exact hrows _ (List.getElem_mem _)
  have hZ0len : (List.replicate (H.headD []).length (PCI.getD 0 0)).length = N := by
    rw [List.length_replicate]; exact hhead
  have hcond : ∀ p ∈ List.range' 1 (PCI.length - 1),
      (List.replicate (H.headD []).length (PCI.getD 0 0)).length ≤ (H.getD p []).length := by
    intro p hp
    rw [hZ0len, hrowlen p hp]
  have hlen : (expand_anamor PCI H r).length = N := by
    have h := foldl_zipWith_length (fun p zv hv => zv + PCI.getD p 0 * hv * r ^ p) H
      (List.range' 1 (PCI.length - 1))
      (List.replicate (H.headD []).length (PCI.getD 0 0)) hcond
    exact h.trans hZ0len
  have hval : ∀ t, t < N →
      (expand_anamor PCI H r).getD t 0 =
        PCI.getD 0 0 +
          ∑ p ∈ Finset.Icc 1 K, PCI.getD p 0 * r ^ p * (H.getD p []).getD t 0 := by
    intro t ht
    have h1 := foldl_zipWith_getD (fun p zv hv => zv + PCI.getD p 0 * hv * r ^ p) H
      (List.range' 1 (PCI.length - 1))
      (List.replicate (H.headD []).length (PCI.getD 0 0)) t hcond (by omega)
    have h2 := foldl_add_eq
      (fun p => PCI.getD p 0 * ((H.getD p []).getD t 0) * r ^ p)
      (List.range' 1 (PCI.length - 1))
      ((List.replicate (H.headD []).length (PCI.getD 0 0)).getD t 0)
    have h3 := sum_map_range'_eq_sum_Icc
      (fun p => PCI.getD p 0 * ((H.getD p []).getD t 0) * r ^ p) (PCI.length - 1)
    have hK : PCI.length - 1 = K := by omega
    have hrep : (List.replicate (H.headD []).length (PCI.getD 0 0)).getD t 0
        = PCI.getD 0 0 := getD_replicate _ _ _ t (by omega)
    calc (expand_anamor PCI H r).getD t 0
        = (List.range' 1 (PCI.length - 1)).foldl
            (fun acc p => acc + PCI.getD p 0 * ((H.getD p []).getD t 0) * r ^ p)
            ((List.replicate (H.headD []).length (PCI.getD 0 0)).getD t 0) := h1
      _ = ((List.replicate (H.headD []).length (PCI.getD 0 0)).getD t 0) +
            ((List.range' 1 (PCI.length - 1)).map
              (fun p => PCI.getD p 0 * ((H.getD p []).getD t 0) * r ^ p)).sum := h2
      _ = PCI.getD 0 0 +
            ∑ p ∈ Finset.Icc 1 K, PCI.getD p 0 * ((H.getD p []).getD t 0) * r ^ p := by
            rw [hrep, h3, hK]
      _ = PCI.getD 0 0 +
            ∑ p ∈ Finset.Icc 1 K, PCI.getD p 0 * r ^ p * (H.getD p []).getD t 0 := by
            refine congrArg _ (Finset.sum_congr rfl ?_)
            intro p _
            ring
  refine ⟨hlen, hval, ?_⟩
  intro hr
  apply List.ext_getElem
  · rw [hlen, List.length_replicate]
  · intro t ht1 ht2
    have htN : t < N := by rw [hlen] at ht1; exact ht1
    rw [← List.getD_eq_getElem _ 0 ht1, ← List.getD_eq_getElem _ 0 ht2]
    rw [hval t htN, getD_replicate _ _ _ t (by simpa using ht2)]
    rw [hr]
    have hz : ∀ p ∈ Finset.Icc 1 K,
        PCI.getD p 0 * (0 : F) ^ p * (H.getD p []).getD t 0 = 0 := by
      intro p hp
      rw [Finset.mem_Icc] at hp
      rw [zero_pow (by omega), mul_zero, zero_mul]
    rw [Finset.sum_congr rfl hz, Finset.sum_const, smul_zero, add_zero]

/-- Decomposition of a successful Y2Z call: the truncation order is at least
one (so PCI has at least two entries), the Hermite matrix is the recurrentH
matrix, the output has the length of the input, and every entry follows the
boundary-overwrite cascade over the raw expansion. -/
theorem Y2Z_parts (sqF : ℚ → F) (y PCI : List F)
    (zamin yamin zpmin ypmin zpmax ypmax zamax yamax r : F) (Z : List F)
    (hZ : Y2Z sqF y PCI zamin yamin zpmin ypmin zpmax ypmax zamax yamax r = some Z) :
    2 ≤ PCI.length ∧
    recurrentH sqF y (PCI.length - 1)
      = some ((List.range (PCI.length - 1 + 1)).map (hermRow sqF y)) ∧
    Z.length = y.length ∧
    ∀ t, t < y.length →
      Z.getD t 0 =
        if y.getD t 0 ≤ ypmin then
          np_interp (y.getD t 0) [yamin, ypmin] [zamin, zpmin]
        else if y.getD t 0 ≥ ypmax then
          np_interp (y.getD t 0) [ypmax, yamax] [zpmax, zamax]
        else (expand_anamor PCI
          ((List.range (PCI.length - 1 + 1)).map (hermRow sqF y)) r).getD t 0 := by
  unfold Y2Z at hZ
  cases hH : recurrentH sqF y (PCI.length - 1) with
  | none => rw [hH] at hZ; exact absurd hZ (by simp)
  | some H =>
    rw [hH] at hZ
    simp only [Option.some.injEq] at hZ
    subst hZ
    unfold recurrentH at hH
    split_ifs at hH with hK
    simp only [Option.some.injEq] at hH
    subst hH
    have hlen2 : 2 ≤ PCI.length := by omega
    have hrows : ∀ row ∈ (List.range (PCI.length - 1 + 1)).map (hermRow sqF y),
        row.length = y.length := by
      intro row hrow
      rw [List.mem_map] at hrow
      obtain ⟨k, -, hk⟩ := hrow
      rw [← hk]
      exact length_hermRow sqF y k
    have heval := expand_anamor_core PCI
      ((List.range (PCI.length - 1 + 1)).map (hermRow sqF y)) r
      (PCI.length - 1) y.length (by omega) (by simp) hrows
    have hZelen : (expand_anamor PCI
        ((List.range (PCI.length - 1 + 1)).map (hermRow sqF y)) r).length
        = y.length := heval.1
    refine ⟨hlen2, rfl, ?_, ?_⟩
    · rw [List.length_map, List.length_zip, hZelen, min_self]
    · intro t ht
      rw [getD_map _ (0, 0) 0 _ t (by rw [List.length_zip, hZelen, min_self]; exact ht)]
      rw [getD_zip 0 0 y _ t ht (by rw [hZelen]; exact ht)]

theorem sum_map_getD_range' (L : List F) (g : F → F) :
    ∀ (n k : Nat), k + n = L.length →
      ((List.range' k n).map (fun p => g (L.getD p 0))).sum = ((L.drop k).map g).sum
  | 0, k, h => by
      have : L.drop k = [] := List.drop_of_length_le (by omega)
      simp [this]
  | n + 1, k, h => by
      rw [List.range'_succ, List.map_cons, List.sum_cons]
      have hk : k < L.length := by omega
      have hdrop : L.drop k = L.getD k 0 :: L.drop (k + 1) := by
        rw [List.getD_eq_getElem _ _ hk]
        exact List.drop_eq_getElem_cons hk
      rw [hdrop, List.map_cons, List.sum_cons,
        sum_map_getD_range' L g n (k + 1) (by omega)]

/-- The residual of f_var_Zv at r = 1 and target variance var_PCI vanishes. -/
theorem f_var_Zv_one (PCI : List F) : f_var_Zv 1 PCI (var_PCI PCI) = 0 := by
  cases PCI with
  | nil => simp [f_var_Zv, var_PCI]
  | cons a l =>
    unfold f_var_Zv var_PCI
    rw [foldl_add_eq (fun p => (a :: l).getD p 0 ^ 2 * (1 : F) ^ (2 * p))
      (List.range' 1 ((a :: l).length - 1)) 0]
    rw [foldl_add_eq (fun x => x) (((a :: l).drop 1).map (fun x => x ^ 2)) 0]
    simp only [one_pow, mul_one, zero_add, List.map_id']
    rw [sub_eq_zero]
    exact sum_map_getD_range' (a :: l) (fun x => x ^ 2) ((a :: l).length - 1) 1
      (by simp [Nat.add_comm])

/-- The residual of f_var_Zv at r = 0 equals minus the target variance. -/
theorem f_var_Zv_zero (PCI : List F) (V : F) : f_var_Zv 0 PCI V = -V := by
  unfold f_var_Zv
  rw [foldl_add_eq (fun p => PCI.getD p 0 ^ 2 * (0 : F) ^ (2 * p))
    (List.range' 1 (PCI.length - 1)) 0]
  have hz : ((List.range' 1 (PCI.length - 1)).map
      (fun p => PCI.getD p 0 ^ 2 * (0 : F) ^ (2 * p))).sum = 0 := by
    apply List.sum_eq_zero
    intro x hx
    rw [List.mem_map] at hx
    obtain ⟨p, hp, hpx⟩ := hx
    rw [List.mem_range'_1] at hp
    rw [← hpx, zero_pow (by omega), mul_zero]
  rw [hz, zero_add, zero_sub]

/-- Exactly one of five propositions holds. -/
def exactlyOneOfFive (g1 g2 g3 g4 g5 : Prop) : Prop :=
  (g1 ∨ g2 ∨ g3 ∨ g4 ∨ g5) ∧
  ¬ (g1 ∧ g2) ∧ ¬ (g1 ∧ g3) ∧ ¬ (g1 ∧ g4) ∧ ¬ (g1 ∧ g5) ∧
  ¬ (g2 ∧ g3) ∧ ¬ (g2 ∧ g4) ∧ ¬ (g2 ∧ g5) ∧
  ¬ (g3 ∧ g4) ∧ ¬ (g3 ∧ g5) ∧ ¬ (g4 ∧ g5)

/-- The guarded conditions of a four-test first-match cascade with a default
branch are mutually exclusive and exhaustive. -/
theorem firstMatch_cascade5 (c1 c2 c3 c4 : Prop) :
    exactlyOneOfFive c1 (¬ c1 ∧ c2) (¬ c1 ∧ ¬ c2 ∧ c3)
      (¬ c1 ∧ ¬ c2 ∧ ¬ c3 ∧ c4) (¬ c1 ∧ ¬ c2 ∧ ¬ c3 ∧ ¬ c4) := by
  unfold exactlyOneOfFive
  tauto

theorem fcpCheck_post (zana zraw gauss : List F) (a b c d i j ii jj : Nat)
    (h : fcpCheck zana zraw gauss a b c d = some (i, j, ii, jj)) :
    zana.getD j 0 ≤ zraw.getD jj 0 ∧ zana.getD i 0 ≥ zraw.getD ii 0 ∧
    gauss.getD j 0 ≤ gauss.getD jj 0 ∧ gauss.getD i 0 ≥ gauss.getD ii 0 := by
  unfold fcpCheck at h
  split_ifs at h with h1 h2 h3 h4
  simp only [Option.some.injEq, Prod.mk.injEq] at h
  obtain ⟨ha, hb, hc, hd⟩ := h
  subst ha hb hc hd
  exact ⟨h1, h2, h3, h4⟩

/-! ### Claim theorems -/

/-- C1: calautorized is four first-match linear scans: jj scans N-1 down to 1
for zraw[jj] < zpmax, ii scans 0 up to N-2 for zraw[ii] > zpmin, i scans
floor(N/2) down to 2 for the three-way disjunction against the practical-min
index, j scans floor(N/2) up to N-2 for the symmetric disjunction; a scan
whose condition never triggers returns its last visited index, and zpmin,
zpmax default to min(zraw), max(zraw) when omitted. -/
theorem calautorized_scan (zana zraw gauss : List F) (zpminO zpmaxO : Option F)
    (N : Nat) (hza : zana.length = N) (hzr : zraw.length = N) (hg : gauss.length = N)
    (hN : 4 ≤ N) (i j ii jj : Nat)
    (hres : calautorized zana zraw gauss zpminO zpmaxO = (i, j, ii, jj)) :
    FirstMatchSpec (fun k => zraw.getD k 0 < zpmaxO.getD (maxList zraw))
      (downTo (N - 1) 1) jj ∧
    FirstMatchSpec (fun k => zraw.getD k 0 > zpminO.getD (minList zraw))
      (List.range' 0 (N - 1)) ii ∧
    FirstMatchSpec
      (fun k => zana.getD (k - 1) 0 < zraw.getD ii 0 ∨
                zana.getD (k - 1) 0 > zana.getD k 0 ∨
                gauss.getD (k - 1) 0 < gauss.getD ii 0)
      (downTo (N / 2) 2) i ∧
    FirstMatchSpec
      (fun k => zana.getD (k + 1) 0 > zraw.getD jj 0 ∨
                zana.getD (k + 1) 0 < zana.getD k 0 ∨
                gauss.getD (k + 1) 0 > gauss.getD jj 0)
      (List.range' (N / 2) (N - 1 - N / 2)) j := by
  simp only [calautorized, Prod.mk.injEq] at hres
  obtain ⟨hi, hj, hii, hjj⟩ := hres
  subst hi hj hii hjj
  rw [hza, hzr]
  refine ⟨?_, ?_, ?_, ?_⟩
  · exact firstMatch_spec _ _ (downTo_ne_nil (by omega))
  · exact firstMatch_spec _ _ (range'_ne_nil (by omega))
  · exact firstMatch_spec _ _ (downTo_ne_nil (by omega))
  · exact firstMatch_spec _ _ (range'_ne_nil (by omega))

/-- C1 witness: a concrete six-point call whose scan results are (2, 4, 1, 4). -/
theorem calautorized_scan_witness :
    ([(0:ℚ),1,2,3,4,5].length = 6 ∧ [(-2:ℚ),-1,0,1,2,3].length = 6 ∧ 4 ≤ 6 ∧
      calautorized (F := ℚ) [0,1,2,3,4,5] [0,1,2,3,4,5] [-2,-1,0,1,2,3] none none
        = (2, 4, 1, 4)) ∧
    (FirstMatchSpec
      (fun k => [(0:ℚ),1,2,3,4,5].getD k 0 <
        (none : Option ℚ).getD (maxList [0,1,2,3,4,5])) (downTo (6 - 1) 1) 4 ∧
     FirstMatchSpec
      (fun k => [(0:ℚ),1,2,3,4,5].getD k 0 >
        (none : Option ℚ).getD (minList [0,1,2,3,4,5])) (List.range' 0 (6 - 1)) 1 ∧
     FirstMatchSpec
      (fun k => [(0:ℚ),1,2,3,4,5].getD (k - 1) 0 < [(0:ℚ),1,2,3,4,5].getD 1 0 ∨
                [(0:ℚ),1,2,3,4,5].getD (k - 1) 0 > [(0:ℚ),1,2,3,4,5].getD k 0 ∨
                [(-2:ℚ),-1,0,1,2,3].getD (k - 1) 0 < [(-2:ℚ),-1,0,1,2,3].getD 1 0)
      (downTo (6 / 2) 2) 2 ∧
     FirstMatchSpec
      (fun k => [(0:ℚ),1,2,3,4,5].getD (k + 1) 0 > [(0:ℚ),1,2,3,4,5].getD 4 0 ∨
                [(0:ℚ),1,2,3,4,5].getD (k + 1) 0 < [(0:ℚ),1,2,3,4,5].getD k 0 ∨
                [(-2:ℚ),-1,0,1,2,3].getD (k + 1) 0 > [(-2:ℚ),-1,0,1,2,3].getD 4 0)
      (List.range' (6 / 2) (6 - 1 - 6 / 2)) 4) :=
  ⟨⟨rfl, rfl, by norm_num, by decide⟩,
    calautorized_scan [0,1,2,3,4,5] [0,1,2,3,4,5] [-2,-1,0,1,2,3] none none 6
      rfl rfl rfl (by norm_num) 2 4 1 4 (by decide)⟩

/-- C3: findcontrolpoints rejects calls violating zamax < zamin, zamin >= zpmin
or zamax <= zpmax, and any returned quadruple satisfies zana[j] <= zraw[jj],
zana[i] >= zraw[ii], gauss[j] <= gauss[jj] and gauss[i] >= gauss[ii]; a
violation of these orderings is a fatal error instead of a return. -/
theorem findcontrolpoints_contract (zana zraw gauss : List F)
    (zpmin zpmax zamin zamax : F) :
    ((¬ (zamax < zamin) ∨ ¬ (zamin ≥ zpmin) ∨ ¬ (zamax ≤ zpmax)) →
      findcontrolpoints zana zraw gauss zpmin zpmax zamin zamax = none) ∧
    (∀ i j ii jj,
      findcontrolpoints zana zraw gauss zpmin zpmax zamin zamax = some (i, j, ii, jj) →
      zana.getD j 0 ≤ zraw.getD jj 0 ∧ zana.getD i 0 ≥ zraw.getD ii 0 ∧
      gauss.getD j 0 ≤ gauss.getD jj 0 ∧ gauss.getD i 0 ≥ gauss.getD ii 0) := by
  constructor
  · intro h
    unfold findcontrolpoints
    split_ifs with h1 h2 h3 h4 <;> try rfl
    rcases h with h | h | h
    · exact absurd h1 h
    · exact absurd h4 h
    · exact absurd h3 h
  · intro i j ii jj h
    unfold findcontrolpoints at h
    split_ifs at h
    exact fcpCheck_post zana zraw gauss _ _ _ _ i j ii jj h

/-- C3 witness: a call violating a precondition is rejected, and a concrete
accepted call returns indices satisfying all four ordering postconditions. -/
theorem findcontrolpoints_contract_witness :
    (¬ ((5:ℚ) < 1) ∧
      findcontrolpoints (F := ℚ) [0,0,3,0] [2,9,8,7] [-1,1,0,9] 1 0 1 5 = none) ∧
    (findcontrolpoints (F := ℚ) [0,0,3,0] [2,9,8,7] [-1,1,0,9] 1 0 1 0
        = some (2, 2, 0, 1) ∧
      [(0:ℚ),0,3,0].getD 2 0 ≤ [(2:ℚ),9,8,7].getD 1 0 ∧
      [(0:ℚ),0,3,0].getD 2 0 ≥ [(2:ℚ),9,8,7].getD 0 0 ∧
      [(-1:ℚ),1,0,9].getD 2 0 ≤ [(-1:ℚ),1,0,9].getD 1 0 ∧
      [(-1:ℚ),1,0,9].getD 2 0 ≥ [(-1:ℚ),1,0,9].getD 0 0) :=
  ⟨⟨by norm_num,
    (findcontrolpoints_contract [0,0,3,0] [2,9,8,7] [-1,1,0,9] 1 0 1 5).1
      (Or.inl (by norm_num))⟩,
   by decide,
   (findcontrolpoints_contract [0,0,3,0] [2,9,8,7] [-1,1,0,9] 1 0 1 0).2
     2 2 0 1 (by decide)⟩

/-- C10: for arrays of common length N >= 4, the indices of calautorized
satisfy 2 <= i <= floor(N/2) <= j <= N-2, 0 <= ii <= N-2 and 1 <= jj <= N-1,
and those of calautorized_blk satisfy 2 <= i <= floor(N/2) <= j <= N-2,
whatever the array contents. -/
theorem calautorized_index_bounds (zana zraw gauss : List F)
    (zpminO zpmaxO : Option F) (zpmin zpmax : F) (N : Nat)
    (hza : zana.length = N) (hzr : zraw.length = N) (hg : gauss.length = N)
    (hN : 4 ≤ N) :
    (2 ≤ (calautorized zana zraw gauss zpminO zpmaxO).1 ∧
     (calautorized zana zraw gauss zpminO zpmaxO).1 ≤ N / 2 ∧
     N / 2 ≤ (calautorized zana zraw gauss zpminO zpmaxO).2.1 ∧
     (calautorized zana zraw gauss zpminO zpmaxO).2.1 ≤ N - 2 ∧
     (calautorized zana zraw gauss zpminO zpmaxO).2.2.1 ≤ N - 2 ∧
     1 ≤ (calautorized zana zraw gauss zpminO zpmaxO).2.2.2 ∧
     (calautorized zana zraw gauss zpminO zpmaxO).2.2.2 ≤ N - 1) ∧
    (2 ≤ (calautorized_blk zana gauss zpmin zpmax).1 ∧
     (calautorized_blk zana gauss zpmin zpmax).1 ≤ N / 2 ∧
     N / 2 ≤ (calautorized_blk zana gauss zpmin zpmax).2.1 ∧
     (calautorized_blk zana gauss zpmin zpmax).2.1 ≤ N - 2) := by
  constructor
  · rcases hc : calautorized zana zraw gauss zpminO zpmaxO with ⟨i, j, ii, jj⟩
    show 2 ≤ i ∧ i ≤ N / 2 ∧ N / 2 ≤ j ∧ j ≤ N - 2 ∧ ii ≤ N - 2 ∧ 1 ≤ jj ∧ jj ≤ N - 1
    simp only [calautorized, Prod.mk.injEq] at hc
    obtain ⟨hi, hj, hii, hjj⟩ := hc
    have mi : i ∈ downTo (zana.length / 2) 2 := by
      rw [← hi]; exact firstMatch_mem _ _ (downTo_ne_nil (by omega))
    have mj : j ∈ List.range' (zana.length / 2) (zana.length - 1 - zana.length / 2) := by
      rw [← hj]; exact firstMatch_mem _ _ (range'_ne_nil (by omega))
    have mii : ii ∈ List.range' 0 (zraw.length - 1) := by
      rw [← hii]; exact firstMatch_mem _ _ (range'_ne_nil (by omega))
    have mjj : jj ∈ downTo (zraw.length - 1) 1 := by
      rw [← hjj]; exact firstMatch_mem _ _ (downTo_ne_nil (by omega))
    rw [mem_downTo (by omega)] at mi
    rw [mem_downTo (by omega)] at mjj
    rw [List.mem_range'_1] at mj mii
    refine ⟨?_, ?_, ?_, ?_, ?_, ?_, ?_⟩ <;> omega
  · rcases hc : calautorized_blk zana gauss zpmin zpmax with ⟨i, j, ii, jj⟩
    show 2 ≤ i ∧ i ≤ N / 2 ∧ N / 2 ≤ j ∧ j ≤ N - 2
    simp only [calautorized_blk, Prod.mk.injEq] at hc
    obtain ⟨hi, hj, hii, hjj⟩ := hc
    have mi : i ∈ downTo (zana.length / 2) 2 := by
      rw [← hi]; exact firstMatch_mem _ _ (downTo_ne_nil (by omega))
    have mj : j ∈ List.range' (zana.length / 2) (zana.length - 1 - zana.length / 2) := by
      rw [← hj]; exact firstMatch_mem _ _ (range'_ne_nil (by omega))
    rw [mem_downTo (by omega)] at mi
    rw [List.mem_range'_1] at mj
    refine ⟨?_, ?_, ?_, ?_⟩ <;> omega

/-- C10 witness: the bounds at a concrete six-point input. -/
theorem calautorized_index_bounds_witness :
    ([(0:ℚ),1,2,3,4,5].length = 6 ∧ [(-2:ℚ),-1,0,1,2,3].length = 6 ∧ 4 ≤ 6) ∧
    ((2 ≤ (calautorized (F := ℚ) [0,1,2,3,4,5] [0,1,2,3,4,5] [-2,-1,0,1,2,3] none none).1 ∧
      (calautorized (F := ℚ) [0,1,2,3,4,5] [0,1,2,3,4,5] [-2,-1,0,1,2,3] none none).1 ≤ 6 / 2 ∧
      6 / 2 ≤ (calautorized (F := ℚ) [0,1,2,3,4,5] [0,1,2,3,4,5] [-2,-1,0,1,2,3] none none).2.1 ∧
      (calautorized (F := ℚ) [0,1,2,3,4,5] [0,1,2,3,4,5] [-2,-1,0,1,2,3] none none).2.1 ≤ 6 - 2 ∧
      (calautorized (F := ℚ) [0,1,2,3,4,5] [0,1,2,3,4,5] [-2,-1,0,1,2,3] none none).2.2.1 ≤ 6 - 2 ∧
      1 ≤ (calautorized (F := ℚ) [0,1,2,3,4,5] [0,1,2,3,4,5] [-2,-1,0,1,2,3] none none).2.2.2 ∧
      (calautorized (F := ℚ) [0,1,2,3,4,5] [0,1,2,3,4,5] [-2,-1,0,1,2,3] none none).2.2.2 ≤ 6 - 1) ∧
     (2 ≤ (calautorized_blk (F := ℚ) [0,1,2,3,4,5] [-2,-1,0,1,2,3] 1 4).1 ∧
      (calautorized_blk (F := ℚ) [0,1,2,3,4,5] [-2,-1,0,1,2,3] 1 4).1 ≤ 6 / 2 ∧
      6 / 2 ≤ (calautorized_blk (F := ℚ) [0,1,2,3,4,5] [-2,-1,0,1,2,3] 1 4).2.1 ∧
      (calautorized_blk (F := ℚ) [0,1,2,3,4,5] [-2,-1,0,1,2,3] 1 4).2.1 ≤ 6 - 2)) :=
  ⟨⟨rfl, rfl, by norm_num⟩,
    calautorized_index_bounds [0,1,2,3,4,5] [0,1,2,3,4,5] [-2,-1,0,1,2,3]
      none none 1 4 6 rfl rfl rfl (by norm_num)⟩

/-- C4: Z2Y_linear classifies each element by the first matching rule of a
fixed five-way priority cascade: clamp to yamin at or below zamin, clamp to
yamax at or above zamax, lower two-point interpolation at or below zpmin,
upper two-point interpolation at or above zpmax, full-table interpolation
strictly inside the practical interval; exactly one branch fires per
element. -/
theorem Z2Y_linear_branches (z zm ym : List F)
    (zamin yamin zpmin ypmin zpmax ypmax zamax yamax : F)
    (t : Nat) (ht : t < z.length) :
    ((Z2Y_linear z zm ym zamin yamin zpmin ypmin zpmax ypmax zamax yamax).getD t 0 =
      (if z.getD t 0 ≤ zamin then yamin
       else if z.getD t 0 ≥ zamax then yamax
       else if z.getD t 0 ≤ zpmin then
         yamin + (z.getD t 0 - zamin) * (ypmin - yamin) / (zpmin - zamin)
       else if z.getD t 0 ≥ zpmax then
         ypmax + (z.getD t 0 - zpmax) * (yamax - ypmax) / (zamax - zpmax)
       else np_interp (z.getD t 0) zm ym)) ∧
    ((¬ (z.getD t 0 ≤ zamin) ∧ ¬ (z.getD t 0 ≥ zamax) ∧ ¬ (z.getD t 0 ≤ zpmin) ∧
        ¬ (z.getD t 0 ≥ zpmax)) → (z.getD t 0 < zpmax ∧ z.getD t 0 > zpmin)) ∧
    exactlyOneOfFive (z.getD t 0 ≤ zamin)
      (¬ (z.getD t 0 ≤ zamin) ∧ z.getD t 0 ≥ zamax)
      (¬ (z.getD t 0 ≤ zamin) ∧ ¬ (z.getD t 0 ≥ zamax) ∧ z.getD t 0 ≤ zpmin)
      (¬ (z.getD t 0 ≤ zamin) ∧ ¬ (z.getD t 0 ≥ zamax) ∧ ¬ (z.getD t 0 ≤ zpmin) ∧
        z.getD t 0 ≥ zpmax)
      (¬ (z.getD t 0 ≤ zamin) ∧ ¬ (z.getD t 0 ≥ zamax) ∧ ¬ (z.getD t 0 ≤ zpmin) ∧
        ¬ (z.getD t 0 ≥ zpmax)) := by
  refine ⟨?_, ?_, firstMatch_cascade5 _ _ _ _⟩
  · unfold Z2Y_linear
    rw [getD_map _ 0 0 z t ht]
    set x := z.getD t 0 with hx
    by_cases h1 : x ≤ zamin
    · rw [if_pos h1, if_pos h1]
    rw [if_neg h1, if_neg h1]
    by_cases h2 : x ≥ zamax
    · rw [if_pos h2, if_pos h2]
    rw [if_neg h2, if_neg h2]
    by_cases h3 : x ≤ zpmin
    · rw [if_pos h3, if_pos h3]
      exact np_interp_pair_mid h1 h3
    rw [if_neg h3, if_neg h3]
    by_cases h4 : x ≥ zpmax
    · rw [if_pos h4, if_pos h4]
      by_cases h5 : x ≤ zpmax
      · have hz : x = zpmax := le_antisymm h5 h4
        rw [np_interp_pair_left (le_of_eq hz), hz]
        rw [sub_self, zero_mul, zero_div, add_zero]
      · have h6 : x ≤ zamax := le_of_lt (lt_of_not_ge h2)
        exact np_interp_pair_mid h5 h6
    rw [if_neg h4, if_neg h4]
    have h5 : x < zpmax ∧ zpmin < x :=
      ⟨lt_of_not_ge h4, lt_of_not_ge h3⟩
    rw [if_pos h5]
  · intro h
    exact ⟨lt_of_not_ge h.2.2.2, lt_of_not_ge h.2.2.1⟩

/-- C4 witness: the branch characterization at a concrete in-range element. -/
theorem Z2Y_linear_branches_witness :
    ((0 : Nat) < [(3:ℚ)].length) ∧
    (((Z2Y_linear (F := ℚ) [3] [0,1,2,3,4] [10,11,12,13,14] 0 (-3) 1 (-2) 4 2 5 3).getD 0 0 =
      (if [(3:ℚ)].getD 0 0 ≤ 0 then (-3 : ℚ)
       else if [(3:ℚ)].getD 0 0 ≥ 5 then 3
       else if [(3:ℚ)].getD 0 0 ≤ 1 then
         -3 + ([(3:ℚ)].getD 0 0 - 0) * (-2 - -3) / (1 - 0)
       else if [(3:ℚ)].getD 0 0 ≥ 4 then
         2 + ([(3:ℚ)].getD 0 0 - 4) * (3 - 2) / (5 - 4)
       else np_interp ([(3:ℚ)].getD 0 0) [0,1,2,3,4] [10,11,12,13,14])) ∧
    ((¬ ([(3:ℚ)].getD 0 0 ≤ 0) ∧ ¬ ([(3:ℚ)].getD 0 0 ≥ 5) ∧ ¬ ([(3:ℚ)].getD 0 0 ≤ 1) ∧
        ¬ ([(3:ℚ)].getD 0 0 ≥ 4)) → ([(3:ℚ)].getD 0 0 < 4 ∧ [(3:ℚ)].getD 0 0 > 1)) ∧
    exactlyOneOfFive ([(3:ℚ)].getD 0 0 ≤ 0)
      (¬ ([(3:ℚ)].getD 0 0 ≤ 0) ∧ [(3:ℚ)].getD 0 0 ≥ 5)
      (¬ ([(3:ℚ)].getD 0 0 ≤ 0) ∧ ¬ ([(3:ℚ)].getD 0 0 ≥ 5) ∧ [(3:ℚ)].getD 0 0 ≤ 1)
      (¬ ([(3:ℚ)].getD 0 0 ≤ 0) ∧ ¬ ([(3:ℚ)].getD 0 0 ≥ 5) ∧ ¬ ([(3:ℚ)].getD 0 0 ≤ 1) ∧
        [(3:ℚ)].getD 0 0 ≥ 4)
      (¬ ([(3:ℚ)].getD 0 0 ≤ 0) ∧ ¬ ([(3:ℚ)].getD 0 0 ≥ 5) ∧ ¬ ([(3:ℚ)].getD 0 0 ≤ 1) ∧
        ¬ ([(3:ℚ)].getD 0 0 ≥ 4))) :=
  ⟨by norm_num,
    Z2Y_linear_branches [3] [0,1,2,3,4] [10,11,12,13,14] 0 (-3) 1 (-2) 4 2 5 3 0
      (by norm_num)⟩

/-- C8: expand_anamor returns the vector of length H.shape[1] whose entry t
is PCI[0] plus the sum over p = 1..K of PCI[p] * r^p * H[p,t]; r = 0
collapses it to the constant vector PCI[0]. -/
theorem expand_anamor_eval (PCI : List F) (H : List (List F)) (r : F) (K N : Nat)
    (hP : PCI.length = K + 1) (hH : H.length = K + 1)
    (hrows : ∀ row ∈ H, row.length = N) :
    (expand_anamor PCI H r).length = N ∧
    (∀ t, t < N →
      (expand_anamor PCI H r).getD t 0 =
        PCI.getD 0 0 +
          ∑ p ∈ Finset.Icc 1 K, PCI.getD p 0 * r ^ p * (H.getD p []).getD t 0) ∧
    (r = 0 → expand_anamor PCI H r = List.replicate N (PCI.getD 0 0)) :=
  expand_anamor_core PCI H r K N hP hH hrows

/-- C8 witness: a concrete expansion with K = 1, N = 2 and r = 2. -/
theorem expand_anamor_eval_witness :
    ([(1:ℚ), 2].length = 1 + 1 ∧ [[(1:ℚ), 1], [3, 4]].length = 1 + 1 ∧
      (∀ row ∈ [[(1:ℚ), 1], [3, 4]], row.length = 2)) ∧
    ((expand_anamor [(1:ℚ), 2] [[1, 1], [3, 4]] 2).length = 2 ∧
     (∀ t, t < 2 →
       (expand_anamor [(1:ℚ), 2] [[1, 1], [3, 4]] 2).getD t 0 =
         [(1:ℚ), 2].getD 0 0 +
           ∑ p ∈ Finset.Icc 1 1,
             [(1:ℚ), 2].getD p 0 * 2 ^ p * ([[(1:ℚ), 1], [3, 4]].getD p []).getD t 0) ∧
     ((2 : ℚ) = 0 →
       expand_anamor [(1:ℚ), 2] [[1, 1], [3, 4]] 2 = List.replicate 2 ([(1:ℚ), 2].getD 0 0))) :=
  ⟨⟨rfl, rfl, by decide⟩,
    expand_anamor_eval [(1:ℚ), 2] [[1, 1], [3, 4]] 2 1 2 rfl rfl (by decide)⟩

/-- C5: a successful Y2Z call evaluates the Hermite expansion at the input
and then overwrites every element at or below ypmin with the lower two-point
interpolation, every element at or above ypmax with the upper two-point
interpolation, and keeps the raw expansion value for elements strictly
between the practical Gaussian bounds — an input at or below ypmin is never
mapped through the raw expansion. -/
theorem Y2Z_boundary (sqF : ℚ → F) (y PCI : List F)
    (zamin yamin zpmin ypmin zpmax ypmax zamax yamax r : F)
    (hyo : ypmin < ypmax) (Z : List F)
    (hZ : Y2Z sqF y PCI zamin yamin zpmin ypmin zpmax ypmax zamax yamax r = some Z)
    (H : List (List F)) (hH : recurrentH sqF y (PCI.length - 1) = some H) :
    Z.length = y.length ∧
    ∀ t, t < y.length →
      (y.getD t 0 ≤ ypmin →
        Z.getD t 0 = np_interp (y.getD t 0) [yamin, ypmin] [zamin, zpmin]) ∧
      (y.getD t 0 ≥ ypmax →
        Z.getD t 0 = np_interp (y.getD t 0) [ypmax, yamax] [zpmax, zamax]) ∧
      (ypmin < y.getD t 0 ∧ y.getD t 0 < ypmax →
        Z.getD t 0 = (expand_anamor PCI H r).getD t 0) := by
  obtain ⟨hlen2, hmat, hZlen, helem⟩ :=
    Y2Z_parts sqF y PCI zamin yamin zpmin ypmin zpmax ypmax zamax yamax r Z hZ
  have hHeq : H = (List.range (PCI.length - 1 + 1)).map (hermRow sqF y) := by
    rw [hH] at hmat
    exact (Option.some.injEq _ _).mp hmat
  subst hHeq
  refine ⟨hZlen, ?_⟩
  intro t ht
  refine ⟨?_, ?_, ?_⟩
  · intro hle
    rw [helem t ht, if_pos hle]
  · intro hge
    have hnle : ¬ y.getD t 0 ≤ ypmin := by
      intro hc
      exact absurd (lt_of_le_of_lt hc hyo) (not_lt_of_ge hge)
    rw [helem t ht, if_neg hnle, if_pos hge]
  · intro hmid
    have hnle : ¬ y.getD t 0 ≤ ypmin := not_le_of_gt hmid.1
    have hnge : ¬ y.getD t 0 ≥ ypmax := not_le_of_gt hmid.2
    rw [helem t ht, if_neg hnle, if_neg hnge]

/-- C5 witness: a three-element call with each element in a different
region: below the practical minimum, inside, and above the practical
maximum. -/
theorem Y2Z_boundary_witness :
    ((-1 : ℚ) < 1 ∧
      Y2Z (fun _ => (0:ℚ)) [-3, 0, 3] [1, 2] 0 (-2) 1 (-1) 9 1 10 2 1
        = some [0, 1, 10] ∧
      recurrentH (fun _ => (0:ℚ)) [-3, 0, 3] ([(1:ℚ), 2].length - 1)
        = some [[1, 1, 1], [3, 0, -3]]) ∧
    ([(0:ℚ), 1, 10].length = [(-3:ℚ), 0, 3].length ∧
     ∀ t, t < [(-3:ℚ), 0, 3].length →
      ([(-3:ℚ), 0, 3].getD t 0 ≤ -1 →
        [(0:ℚ), 1, 10].getD t 0 = np_interp ([(-3:ℚ), 0, 3].getD t 0) [-2, -1] [0, 1]) ∧
      ([(-3:ℚ), 0, 3].getD t 0 ≥ 1 →
        [(0:ℚ), 1, 10].getD t 0 = np_interp ([(-3:ℚ), 0, 3].getD t 0) [1, 2] [9, 10]) ∧
      ((-1 : ℚ) < [(-3:ℚ), 0, 3].getD t 0 ∧ [(-3:ℚ), 0, 3].getD t 0 < 1 →
        [(0:ℚ), 1, 10].getD t 0 =
          (expand_anamor [(1:ℚ), 2] [[1, 1, 1], [3, 0, -3]] 1).getD t 0)) := by
  have hZval : Y2Z (fun _ => (0:ℚ)) [-3, 0, 3] [1, 2] 0 (-2) 1 (-1) 9 1 10 2 1
      = some [0, 1, 10] := by
    norm_num [Y2Z, recurrentH, hermRow, expand_anamor, np_interp, interpSeg, zipW3,
      List.range'_succ, show List.range 2 = [0, 1] from rfl,
      show List.replicate 3 (1:ℚ) = [1, 1, 1] from rfl]
  have hHval : recurrentH (fun _ => (0:ℚ)) [-3, 0, 3] ([(1:ℚ), 2].length - 1)
      = some [[1, 1, 1], [3, 0, -3]] := by
    norm_num [recurrentH, hermRow, show List.range 2 = [0, 1] from rfl]
  exact ⟨⟨by norm_num, hZval, hHval⟩,
    Y2Z_boundary (fun _ => (0:ℚ)) [-3, 0, 3] [1, 2] 0 (-2) 1 (-1) 9 1 10 2 1
      (by norm_num) [0, 1, 10] hZval [[1, 1, 1], [3, 0, -3]] hHval⟩

/-- C9: with the four Gaussian anchors strictly ordered, a successful Y2Z
call maps any input below yamin to exactly zamin and any input above yamax
to exactly zamax: outside the authorized bounds the two-point interpolation
clamps to the authorized anchor instead of extrapolating. -/
theorem Y2Z_authorized_clamp (sqF : ℚ → F) (y PCI : List F)
    (zamin yamin zpmin ypmin zpmax ypmax zamax yamax r : F)
    (h1 : yamin < ypmin) (h2 : ypmin < ypmax) (h3 : ypmax < yamax)
    (Z : List F)
    (hZ : Y2Z sqF y PCI zamin yamin zpmin ypmin zpmax ypmax zamax yamax r = some Z)
    (t : Nat) (ht : t < y.length) :
    (y.getD t 0 < yamin → Z.getD t 0 = zamin) ∧
    (y.getD t 0 > yamax → Z.getD t 0 = zamax) := by
  obtain ⟨-, -, -, helem⟩ :=
    Y2Z_parts sqF y PCI zamin yamin zpmin ypmin zpmax ypmax zamax yamax r Z hZ
  constructor
  · intro hlow
    have hle : y.getD t 0 ≤ ypmin := le_of_lt (lt_trans hlow h1)
    rw [helem t ht, if_pos hle]
    exact np_interp_pair_left (le_of_lt hlow)
  · intro hhigh
    have hgt : ypmax < y.getD t 0 := lt_trans h3 hhigh
    have hnle : ¬ y.getD t 0 ≤ ypmin := by
      intro hc
      exact absurd (lt_of_le_of_lt hc h2) (not_lt_of_ge (le_of_lt hgt))
    rw [helem t ht, if_neg hnle, if_pos (le_of_lt hgt)]
    exact np_interp_pair_right (not_le_of_gt hgt) (not_le_of_gt hhigh)

/-- C9 witness: inputs outside the authorized Gaussian bounds return the
authorized raw anchors exactly. -/
theorem Y2Z_authorized_clamp_witness :
    ((-2 : ℚ) < -1 ∧ (-1 : ℚ) < 1 ∧ (1 : ℚ) < 2 ∧
      Y2Z (fun _ => (0:ℚ)) [-10, 10] [1, 2] 5 (-2) 6 (-1) 7 1 8 2 1
        = some [5, 8] ∧ (0 : Nat) < [(-10:ℚ), 10].length) ∧
    (([(-10:ℚ), 10].getD 0 0 < -2 → [(5:ℚ), 8].getD 0 0 = 5) ∧
     ([(-10:ℚ), 10].getD 0 0 > 2 → [(5:ℚ), 8].getD 0 0 = 8)) := by
  have hZval : Y2Z (fun _ => (0:ℚ)) [-10, 10] [1, 2] 5 (-2) 6 (-1) 7 1 8 2 1
      = some [5, 8] := by
    norm_num [Y2Z, recurrentH, hermRow, expand_anamor, np_interp, interpSeg, zipW3,
      List.range'_succ, show List.range 2 = [0, 1] from rfl,
      show List.replicate 2 (1:ℚ) = [1, 1] from rfl]
  exact ⟨⟨by norm_num, by norm_num, by norm_num, hZval, by norm_num⟩,
    Y2Z_authorized_clamp (fun _ => (0:ℚ)) [-10, 10] [1, 2] 5 (-2) 6 (-1) 7 1 8 2 1
      (by norm_num) (by norm_num) (by norm_num) [5, 8] hZval 0 (by norm_num)⟩

/-- C2: fit_PCI ignores the externally supplied meanz.  At the concrete call
fit_PCI(z = [0, 2], y = [0, 0], H = [[1, 1]], meanz = 5) the returned
PCI[0] equals the computed mean np.mean(z) = 1 and not the supplied 5, for
any model of the libc exp and sqrt collaborators: the source conditionally
defaults the local meanz but then stores np.mean(z) unconditionally. -/
theorem fit_PCI_meanz_ignored (expF sqF : ℚ → ℚ) :
    ∃ pr : List ℚ × List ℚ,
      fit_PCI expF sqF [0, 2] [0, 0] [[1, 1]] (some 5) = some pr ∧
      pr.1.getD 0 0 = meanOf [(0 : ℚ), 2] ∧ pr.1.getD 0 0 = 1 ∧ pr.1.getD 0 0 ≠ 5 := by
  refine ⟨([1], [0, 0]), ?_, by norm_num [meanOf], by norm_num, by norm_num⟩
  norm_num [fit_PCI, meanOf, show List.range 1 = [0] from rfl,
    show List.replicate 2 (0 : ℚ) = [0, 0] from rfl]

/-- C6: get_r finds the root of the residual f_var_Zv on the bracket [0, 1]:
with target variance equal to the sum of squared PCI tail coefficients
(nonzero) it returns exactly 1, with target variance 0 it returns exactly 0,
and it fails when the residual does not change sign across the bracket. -/
theorem get_r_contract (PCI : List F) (hvar : var_PCI PCI ≠ 0) :
    get_r (var_PCI PCI) PCI = some 1 ∧
    get_r 0 PCI = some 0 ∧
    (∀ Var_Zv : F, 0 < f_var_Zv 0 PCI Var_Zv * f_var_Zv 1 PCI Var_Zv →
      get_r Var_Zv PCI = none) := by
  refine ⟨?_, ?_, ?_⟩
  · simp only [get_r, brentq]
    simp only [f_var_Zv_one, f_var_Zv_zero]
    simp [hvar]
  · simp only [get_r, brentq]
    simp only [f_var_Zv_zero]
    simp
  · intro V hV
    simp only [get_r, brentq]
    rw [if_pos hV]

/-- C6 witness: PCI = [0, 1] has tail variance 1; targeting it returns r = 1,
targeting 0 returns r = 0, and the negative target -1 leaves the residual
positive on the whole bracket, so the solver fails. -/
theorem get_r_contract_witness :
    (var_PCI [(0 : ℚ), 1] ≠ 0) ∧
    (get_r (var_PCI [(0 : ℚ), 1]) [(0 : ℚ), 1] = some 1 ∧
     get_r 0 [(0 : ℚ), 1] = some 0 ∧
     (0 < f_var_Zv 0 [(0 : ℚ), 1] (-1) * f_var_Zv 1 [(0 : ℚ), 1] (-1) ∧
       get_r (-1) [(0 : ℚ), 1] = none)) := by
  have hvar : var_PCI [(0 : ℚ), 1] ≠ 0 := by
    norm_num [var_PCI]
  have hsign : 0 < f_var_Zv 0 [(0 : ℚ), 1] (-1) * f_var_Zv 1 [(0 : ℚ), 1] (-1) := by
    norm_num [f_var_Zv, List.range'_succ]
  exact ⟨hvar, (get_r_contract [(0 : ℚ), 1] hvar).1,
    (get_r_contract [(0 : ℚ), 1] hvar).2.1,
    hsign, (get_r_contract [(0 : ℚ), 1] hvar).2.2 (-1) hsign⟩

/-- C7: for any model of np.sqrt (a function returning the nonnegative
square root), recurrentH builds a (K+1) x len(y) matrix with H[0,:] = 1,
H[1,:] = -y and the three-term recurrence
H[k+1,:] = -(1/sqrt(k+1))*y*H[k,:] - sqrt(k/(k+1))*H[k-1,:] for k = 1..K-1;
a call with K < 1 is rejected; and K = 2, y = [0] yields
H = [[1], [0], [-1/sqrt 2]]. -/
theorem recurrentH_rows (sqF : ℚ → F)
    (hsq : ∀ q : ℚ, 0 ≤ q → sqF q * sqF q = (q : F) ∧ 0 ≤ sqF q) :
    (∀ (y : List F) (K : Nat), 1 ≤ K →
      ∃ H, recurrentH sqF y K = some H ∧
        H.length = K + 1 ∧ (∀ row ∈ H, row.length = y.length) ∧
        (∀ t, t < y.length → (H.getD 0 []).getD t 0 = 1) ∧
        (∀ t, t < y.length → (H.getD 1 []).getD t 0 = -(y.getD t 0)) ∧
        (∀ k, 1 ≤ k → k ≤ K - 1 → ∀ t, t < y.length →
          (H.getD (k + 1) []).getD t 0 =
            -(1 / sqF ((k : ℚ) + 1)) * y.getD t 0 * (H.getD k []).getD t 0
              - sqF ((k : ℚ) / ((k : ℚ) + 1)) * (H.getD (k - 1) []).getD t 0)) ∧
    (∀ y : List F, recurrentH sqF y 0 = none) ∧
    recurrentH sqF [(0 : F)] 2 = some [[1], [0], [-(1 / sqF 2)]] := by
  refine ⟨?_, ?_, ?_⟩
  · intro y K hK
    refine ⟨(List.range (K + 1)).map (hermRow sqF y), ?_, by simp, ?_, ?_, ?_, ?_⟩
    · unfold recurrentH
      rw [if_neg (by omega)]
    · intro row hrow
      rw [List.mem_map] at hrow
      obtain ⟨k, -, hk⟩ := hrow
      rw [← hk]
      exact length_hermRow sqF y k
    · intro t ht
      rw [getD_hermMatrix sqF y (K + 1) 0 (by omega)]
      rw [show hermRow sqF y 0 = y.map (fun _ => 1) from rfl]
      rw [getD_map _ 0 0 y t ht]
    · intro t ht
      rw [getD_hermMatrix sqF y (K + 1) 1 (by omega)]
      rw [show hermRow sqF y 1 = y.map (fun v => -v) from rfl]
      rw [getD_map _ 0 0 y t ht]
    · intro k hk1 hkK t ht
      rw [getD_hermMatrix sqF y (K + 1) (k + 1) (by omega),
        getD_hermMatrix sqF y (K + 1) k (by omega),
        getD_hermMatrix sqF y (K + 1) (k - 1) (by omega)]
      rw [show k + 1 = (k - 1) + 2 from by omega]
      simp only [hermRow]
      rw [getD_zipW3 _ 0 0 0 0 y _ _ t ht
        (by rw [length_hermRow]; exact ht) (by rw [length_hermRow]; exact ht)]
      have hidx : k - 1 + 1 = k := by omega
      have hc0 : ((k - 1 : Nat) : ℚ) = (k : ℚ) - 1 :=
        Nat.cast_sub (by omega)
      rw [hidx, hc0]
      have hc1 : ((k : ℚ) - 1) + 2 = (k : ℚ) + 1 := by ring
      have hc2 : ((k : ℚ) - 1) + 1 = (k : ℚ) := by ring
      rw [hc1, hc2]
      ring
  · intro y
    simp [recurrentH]
  · obtain ⟨h2sq, h2nn⟩ := hsq 2 (by norm_num)
    obtain ⟨hhsq, hhnn⟩ := hsq (1 / 2) (by norm_num)
    have hcast2 : ((2 : ℚ) : F) = 2 := by push_cast; ring
    have hcasth : (((1 : ℚ) / 2 : ℚ) : F) = 1 / 2 := by push_cast; ring
    have hs2ne : sqF 2 ≠ 0 := by
      intro h0
      rw [h0, mul_zero, hcast2] at h2sq
      exact two_ne_zero h2sq.symm
    have hkey : sqF (1 / 2) = 1 / sqF 2 := by
      have hmul : sqF (1 / 2) * sqF (1 / 2) = (1 / sqF 2) * (1 / sqF 2) := by
        rw [hhsq, div_mul_div_comm, one_mul, h2sq, hcast2, hcasth]
      rcases mul_self_eq_mul_self_iff.mp hmul with h | h
      · exact h
      · have hb : (0 : F) ≤ 1 / sqF 2 := by positivity
        have h0 : sqF (1 / 2) = 0 :=
          le_antisymm (h ▸ neg_nonpos.mpr hb) hhnn
        rw [h0, mul_zero, hcasth] at hhsq
        have : (0 : F) < 1 / 2 := by norm_num
        rw [← hhsq] at this
        exact absurd this (lt_irrefl 0)
    unfold recurrentH
    rw [if_neg (by omega)]
    rw [show List.range 3 = [0, 1, 2] from rfl]
    simp only [List.map_cons, List.map_nil]
    rw [show (2 : Nat) = 0 + 2 from rfl]
    simp only [hermRow, zipW3, List.map_cons, List.map_nil]
    norm_num [hkey]

/-- C7 witness: the genuine square root on the reals satisfies the model
hypothesis, and the concrete K = 2, y = [0] call returns
[[1], [0], [-1/sqrt 2]]. -/
theorem recurrentH_rows_witness :
    (∀ q : ℚ, 0 ≤ q →
      Real.sqrt (q : ℝ) * Real.sqrt (q : ℝ) = ((q : ℚ) : ℝ) ∧
        (0 : ℝ) ≤ Real.sqrt (q : ℝ)) ∧
    recurrentH (fun q : ℚ => Real.sqrt (q : ℝ)) [(0 : ℝ)] 2
      = some [[1], [0], [-(1 / Real.sqrt ((2 : ℚ) : ℝ))]] := by
  have hsq : ∀ q : ℚ, 0 ≤ q →
      (fun q : ℚ => Real.sqrt (q : ℝ)) q * (fun q : ℚ => Real.sqrt (q : ℝ)) q
        = ((q : ℚ) : ℝ) ∧ (0 : ℝ) ≤ (fun q : ℚ => Real.sqrt (q : ℝ)) q := by
    intro q hq
    exact ⟨Real.mul_self_sqrt (by exact_mod_cast hq), Real.sqrt_nonneg _⟩
  exact ⟨hsq, (recurrentH_rows (fun q : ℚ => Real.sqrt (q : ℝ)) hsq).2.2⟩

end PyGSLibNL
